import Mathlib

/-!
Shallow embedding of the deforestation-detection core
(`backend/image_processor.py` and `backend/dsa_algorithms.py`).

Rasters are embedded pointwise as functions from an index type to `ℚ`
(numpy's arithmetic and comparison operators act elementwise), or as
flat `List ℚ` where a global statistic of the array is needed
(percentiles).  Floating-point reflectance values are modelled by `ℚ`;
the `1e-8` epsilon guards of the source are kept literally.
A numpy percentile over an empty selection raises, which the embedding
renders as `Option.none`.
-/

namespace Defor

/-- numpy `np.clip(x, lo, hi)` on a scalar: clamp `x` into `[lo, hi]`. -/
def clip (lo hi x : ℚ) : ℚ := max lo (min hi x)

/-- The `1e-8` epsilon used by `image_processor.py` to guard divisions. -/
def eps : ℚ := 1 / 100000000

/-- One pixel of `compute_ndvi` (image_processor.py lines 49-67):
`ndvi = (nir - red) / (nir + red + 1e-8)`, then `np.clip(ndvi, -1, 1)`. -/
def ndviPixel (nir red : ℚ) : ℚ :=
  clip (-1) 1 ((nir - red) / (nir + red + eps))

/-- One pixel of `compute_evi` (image_processor.py lines 69-83):
`evi = 2.5 * (nir - red) / (nir + 6*red + 1e-8)`, then `np.clip(evi, -1, 1)`. -/
def eviPixel (nir red : ℚ) : ℚ :=
  clip (-1) 1 (5 / 2 * (nir - red) / (nir + 6 * red + eps))

/-- `compute_ndvi` on whole (same-shaped) arrays, elementwise. -/
def compute_ndvi {ι : Type} (nir red : ι → ℚ) : ι → ℚ :=
  fun i => ndviPixel (nir i) (red i)

/-- `compute_evi` on whole (same-shaped) arrays, elementwise. -/
def compute_evi {ι : Type} (nir red : ι → ℚ) : ι → ℚ :=
  fun i => eviPixel (nir i) (red i)

/-- Stage 4 of `detect_forest_loss`, line 196:
`forest_mask = (ndvi_before > self.forest_ndvi_threshold) | (evi_before > 0.3)`.
The NDVI threshold is the tunable attribute `forest_ndvi_threshold`
(default `0.3`); the EVI threshold `0.3` is hardcoded in the source. -/
def forest_mask {ι : Type} (fThr : ℚ) (ndvi_before evi_before : ι → ℚ) : ι → Bool :=
  fun i => decide (fThr < ndvi_before i) || decide ((3 : ℚ)/10 < evi_before i)

/-- Stage 4, line 199: `ndvi_loss = (ndvi_change > self.min_change_threshold) & valid_mask`. -/
def ndvi_loss {ι : Type} (cThr : ℚ) (ndvi_change : ι → ℚ) (valid_mask : ι → Bool) : ι → Bool :=
  fun i => decide (cThr < ndvi_change i) && valid_mask i

/-- Stage 4, line 200: `evi_loss = (evi_change > 0.1) & valid_mask` (threshold hardcoded). -/
def evi_loss {ι : Type} (evi_change : ι → ℚ) (valid_mask : ι → Bool) : ι → Bool :=
  fun i => decide ((1 : ℚ)/10 < evi_change i) && valid_mask i

/-- Stage 4, line 203:
`deforestation_mask = forest_mask & (ndvi_loss | evi_loss)`. -/
def deforestation_mask {ι : Type} (fThr cThr : ℚ)
    (ndvi_before evi_before ndvi_change evi_change : ι → ℚ)
    (valid_mask : ι → Bool) : ι → Bool :=
  fun i => forest_mask fThr ndvi_before evi_before i &&
    (ndvi_loss cThr ndvi_change valid_mask i || evi_loss evi_change valid_mask i)

/-- The mask as the SPEC words it (section 4.4): `forest AND (loss candidate) AND valid`,
where the loss candidate is the plain threshold disjunction, with the validity
conjunct factored out. -/
def specMask {ι : Type} (fThr cThr : ℚ)
    (ndvi_before evi_before ndvi_change evi_change : ι → ℚ)
    (valid_mask : ι → Bool) : ι → Bool :=
  fun i => forest_mask fThr ndvi_before evi_before i &&
    (decide (cThr < ndvi_change i) || decide ((1 : ℚ)/10 < evi_change i)) &&
    valid_mask i

/-- The 6-tuple geo-transform `(t0, .., t5)`; `_pixel_to_geo` reads
entries 0, 1, 3 and 5. -/
structure GeoTransform where
  t0 : ℚ
  t1 : ℚ
  t2 : ℚ
  t3 : ℚ
  t4 : ℚ
  t5 : ℚ

/-- `_pixel_to_geo` (image_processor.py lines 385-401): map each `(row, col)`
to `(lon, lat) = (t0 + col*t1, t3 + row*t5)`; then, if the list is nonempty and
its first entry differs from its last, append the first entry to close the ring. -/
def pixel_to_geo (gt : GeoTransform) (pixel_coords : List (ℚ × ℚ)) : List (ℚ × ℚ) :=
  let g := pixel_coords.map fun rc => (gt.t0 + rc.2 * gt.t1, gt.t3 + rc.1 * gt.t5)
  match g with
  | [] => []
  | c :: cs => if (c :: cs).getLastD c = c then c :: cs else (c :: cs) ++ [c]

/-- Insert into a sorted list, keeping it sorted (helper for `sortList`). -/
def insertSorted (x : ℚ) : List ℚ → List ℚ
  | [] => [x]
  | y :: ys => if x ≤ y then x :: y :: ys else y :: insertSorted x ys

/-- Ascending sort of a rational list (numpy sorts before taking percentiles). -/
def sortList : List ℚ → List ℚ
  | [] => []
  | x :: xs => insertSorted x (sortList xs)

/-- numpy `np.percentile(xs, q)` with the default linear interpolation:
sort, take position `q*(n-1)/100`, and interpolate between the two nearest
order statistics.  numpy raises on an empty array; this is rendered as `none`. -/
def percentile (xs : List ℚ) (q : ℚ) : Option ℚ :=
  match sortList xs with
  | [] => none
  | y :: ys =>
    let s := y :: ys
    let pos : ℚ := q * ((s.length : ℚ) - 1) / 100
    let i : ℕ := (⌊pos⌋).toNat
    let lo := s.getD i y
    let hi := s.getD (i+1) lo
    some (lo + (pos - (i : ℚ)) * (hi - lo))

/-- `atmospheric_correction` (image_processor.py lines 85-97):
`dark_value = np.percentile(image[image > 0], 2)`; subtract it and clamp at 0.
`none` models the exception numpy raises when no pixel is positive. -/
def atmospheric_correction (image : List ℚ) : Option (List ℚ) :=
  match percentile (image.filter fun v => decide (0 < v)) 2 with
  | none => none
  | some dark_value => some (image.map fun v => max (v - dark_value) 0)

/-- Minimum of a list (`arr.min()` on a nonempty numpy array). -/
def listMin : List ℚ → ℚ
  | [] => 0
  | x :: xs => xs.foldl min x

/-- Maximum of a list (`arr.max()` on a nonempty numpy array). -/
def listMax : List ℚ → ℚ
  | [] => 0
  | x :: xs => xs.foldl max x

/-- `normalize_band` (image_processor.py lines 36-47):
`p1, p99 = np.percentile(band[band > 0], [1, 99])`; clip to `[p1, p99]`;
rescale by `(x - min) / (max - min + 1e-8)`.  `none` models the exception
numpy raises when no pixel is positive. -/
def normalize_band (band : List ℚ) : Option (List ℚ) :=
  let pos := band.filter fun v => decide (0 < v)
  match percentile pos 1, percentile pos 99 with
  | some p1, some p99 =>
    let clipped := band.map (clip p1 p99)
    let mn := listMin clipped
    let mx := listMax clipped
    some (clipped.map fun v => (v - mn) / (mx - mn + eps))
  | _, _ => none

/-- C1: the stage-4 deforestation mask of `detect_forest_loss` equals, pixel by
pixel, the spec's formulation `forest AND loss-candidate AND valid`: the code's
`forest_mask & ((ndvi_loss & valid) | (evi_loss & valid))` distributes the
validity conjunct, and both sides agree on every pixel of every pair of
same-shaped before/after index arrays. -/
theorem stage4_mask_eq_spec {ι : Type} (fThr cThr : ℚ)
    (nb eb nch ech : ι → ℚ) (valid : ι → Bool) (i : ι) :
    deforestation_mask fThr cThr nb eb nch ech valid i =
      specMask fThr cThr nb eb nch ech valid i := by
  simp only [deforestation_mask, specMask, ndvi_loss, evi_loss]
  cases valid i <;> simp

/-- C5: for every pair of equally shaped NIR and red arrays and every pixel,
including zero and negative reflectances, `compute_ndvi` and `compute_evi`
return values in the closed interval `[-1, 1]` (the final `np.clip` step
guarantees it). -/
theorem ndvi_evi_in_range {ι : Type} (nir red : ι → ℚ) (i : ι) :
    (-1 ≤ compute_ndvi nir red i ∧ compute_ndvi nir red i ≤ 1) ∧
    (-1 ≤ compute_evi nir red i ∧ compute_evi nir red i ≤ 1) := by
  have h : ∀ x : ℚ, -1 ≤ clip (-1) 1 x ∧ clip (-1) 1 x ≤ 1 := by
    intro x
    refine ⟨le_max_left _ _, max_le (by norm_num) (min_le_left _ _)⟩
  exact ⟨h _, h _⟩

/-- C7: every coordinate ring produced by `_pixel_to_geo` is closed — the
first coordinate pair equals the last (the function appends the first point
whenever the ring is not already closed). -/
theorem pixel_to_geo_ring_closed (gt : GeoTransform) (pcs : List (ℚ × ℚ))
    (h : pcs ≠ []) :
    (pixel_to_geo gt pcs).head? = (pixel_to_geo gt pcs).getLast? := by
  unfold pixel_to_geo
  cases hm : pcs.map (fun rc => (gt.t0 + rc.2 * gt.t1, gt.t3 + rc.1 * gt.t5)) with
  | nil => exact absurd (List.map_eq_nil_iff.mp hm) h
  | cons c cs =>
    show (if (c :: cs).getLastD c = c then c :: cs else (c :: cs) ++ [c]).head? =
      (if (c :: cs).getLastD c = c then c :: cs else (c :: cs) ++ [c]).getLast?
    by_cases hlast : (c :: cs).getLastD c = c
    · rw [if_pos hlast]
      rw [List.getLastD_eq_getLast?] at hlast
      cases hl : (c :: cs).getLast? with
      | none =>
        rw [List.getLast?_eq_none_iff] at hl
        exact absurd hl (by simp)
      | some d =>
        rw [hl, Option.getD_some] at hlast
        rw [List.head?_cons]
        exact congrArg some hlast.symm
    · rw [if_neg hlast]
      rw [List.getLast?_concat]
      rfl

/-- Witness for C7 at a concrete transform and contour. -/
theorem pixel_to_geo_ring_closed_witness :
    ([((0 : ℚ), (0 : ℚ)), (0, 1), (1, 1)] ≠ ([] : List (ℚ × ℚ))) ∧
    ((pixel_to_geo ⟨0, 1, 0, 0, 0, 1⟩ [((0 : ℚ), (0 : ℚ)), (0, 1), (1, 1)]).head? =
      (pixel_to_geo ⟨0, 1, 0, 0, 0, 1⟩ [((0 : ℚ), (0 : ℚ)), (0, 1), (1, 1)]).getLast?) :=
  ⟨by decide, pixel_to_geo_ring_closed ⟨0, 1, 0, 0, 0, 1⟩ _ (by decide)⟩

/-- C2 (code bug): on a band that is entirely zero or negative, the positive
selection `band[band > 0]` is empty, `np.percentile` of it raises, and neither
`atmospheric_correction` nor `normalize_band` has a fallback: the embedding
returns `none` (exception), not a defined value. -/
theorem degenerate_band_has_no_fallback :
    atmospheric_correction [0, 0, 0, 0] = none ∧
    normalize_band [0, 0, 0, 0] = none ∧
    atmospheric_correction [-1, -2] = none ∧
    normalize_band [-1, -2] = none := by decide

/-! ### Point Engine: `UnionFind` (dsa_algorithms.py lines 34-122)

The Python object carries three integer lists; `find` is recursive with path
compression, so the embedding threads the mutated structure explicitly and
uses fuel for the recursion (fuel `parent.length` is shown sufficient under
the structure's invariant). -/

structure UnionFind where
  parent : List ℕ
  rank : List ℕ
  size : List ℕ

/-- `UnionFind.__init__(n)`: `parent = list(range(n))`, `rank = [0]*n`, `size = [1]*n`. -/
def UnionFind.ofSize (n : ℕ) : UnionFind :=
  ⟨List.range n, List.replicate n 0, List.replicate n 1⟩

/-- Read `parent[x]` (out-of-range reads, never performed by the claims, default to `x`). -/
def parentOf (p : List ℕ) (x : ℕ) : ℕ := p.getD x x

/-- Read `rank[x]`. -/
def rankOf (rk : List ℕ) (x : ℕ) : ℕ := rk.getD x 0

/-- Read `size[x]`. -/
def sizeAt (s : List ℕ) (x : ℕ) : ℕ := s.getD x 0

/-- Pure parent chasing with fuel: the node reached from `x` after at most
`fuel` parent steps, stopping at a fixpoint. -/
def rootAux (p : List ℕ) : ℕ → ℕ → ℕ
  | 0, x => x
  | fuel+1, x => if parentOf p x = x then x else rootAux p fuel (parentOf p x)

/-- The root of the set containing `x`: the value `find(x)` returns,
ignoring the path-compression side effect. -/
def rootOf (p : List ℕ) (x : ℕ) : ℕ := rootAux p p.length x

/-- `UnionFind.find` (dsa_algorithms.py lines 51-63) with path compression:
`if parent[x] != x: parent[x] = find(parent[x]); return parent[x]`.
Returns the root together with the compressed structure. -/
def findAux : ℕ → UnionFind → ℕ → ℕ × UnionFind
  | 0, st, x => (x, st)
  | fuel+1, st, x =>
    if parentOf st.parent x = x then (x, st)
    else
      let rs := findAux fuel st (parentOf st.parent x)
      (rs.1, ⟨rs.2.parent.set x rs.1, rs.2.rank, rs.2.size⟩)

def UnionFind.find (st : UnionFind) (x : ℕ) : ℕ × UnionFind :=
  findAux st.parent.length st x

/-- `UnionFind.union` by rank (dsa_algorithms.py lines 65-94): find both roots
(each `find` compresses paths), return unchanged on equal roots, otherwise
attach the lower-rank root below the higher-rank one, accumulating sizes;
on a rank tie attach `root_y` below `root_x` and bump the rank of `root_x`. -/
def UnionFind.union (st : UnionFind) (x y : ℕ) : UnionFind × Bool :=
  let fx := st.find x
  let st1 := fx.2
  let fy := st1.find y
  let rx := fx.1
  let ry := fy.1
  let st2 := fy.2
  if rx = ry then (st2, false)
  else if rankOf st2.rank rx < rankOf st2.rank ry then
    (⟨st2.parent.set rx ry, st2.rank, st2.size.set ry (sizeAt st2.size ry + sizeAt st2.size rx)⟩,
      true)
  else if rankOf st2.rank ry < rankOf st2.rank rx then
    (⟨st2.parent.set ry rx, st2.rank, st2.size.set rx (sizeAt st2.size rx + sizeAt st2.size ry)⟩,
      true)
  else
    (⟨st2.parent.set ry rx, st2.rank.set rx (rankOf st2.rank rx + 1),
      st2.size.set rx (sizeAt st2.size rx + sizeAt st2.size ry)⟩, true)

/-- `UnionFind.get_size` (dsa_algorithms.py lines 96-107):
`root = self.find(x); return self.size[root]`. -/
def UnionFind.get_size (st : UnionFind) (x : ℕ) : ℕ :=
  let f := st.find x
  sizeAt f.2.size f.1

/-- Run a sequence of `union(x, y)` calls left to right. -/
def runUnions (us : List (ℕ × ℕ)) (st : UnionFind) : UnionFind :=
  us.foldl (fun s q => (s.union q.1 q.2).1) st

/-- `x` and `y` are connected by some chain of the recorded union calls
(reflexive-symmetric-transitive closure of the called pairs). -/
inductive Connected (us : List (ℕ × ℕ)) : ℕ → ℕ → Prop where
  | refl (x : ℕ) : Connected us x x
  | base {a b : ℕ} : (a, b) ∈ us → Connected us a b
  | symm {a b : ℕ} : Connected us a b → Connected us b a
  | trans {a b c : ℕ} : Connected us a b → Connected us b c → Connected us a c

/-- Structural well-formedness of the parent/rank lists: parents stay in
range and ranks strictly increase along parent edges (which bounds every
parent chain, hence serves as the termination certificate for `find`). -/
structure WFp (n : ℕ) (p rk : List ℕ) : Prop where
  plen : p.length = n
  rklen : rk.length = n
  pmem : ∀ x, x < n → parentOf p x < n
  rkmono : ∀ x, x < n → parentOf p x ≠ x → rankOf rk x < rankOf rk (parentOf p x)
  rkbound : ∀ x, x < n → rankOf rk x < n

/-- The set of elements of `0..n-1` whose root is `r`. -/
def classOf (p : List ℕ) (n r : ℕ) : Finset ℕ :=
  (Finset.range n).filter fun z => rootOf p z = r

/-- Full invariant: structural well-formedness, the `size` entry of every root
counts its class, and every root's rank is strictly below its class size. -/
structure Inv (n : ℕ) (st : UnionFind) : Prop where
  wf : WFp n st.parent st.rank
  szlen : st.size.length = n
  szeq : ∀ r, r < n → parentOf st.parent r = r → sizeAt st.size r = (classOf st.parent n r).card
  rklt : ∀ r, r < n → parentOf st.parent r = r → rankOf st.rank r < sizeAt st.size r

/-- What a `find` call preserves: ranks, sizes, parent length, every root,
and the set of root elements. -/
structure Preserves (n : ℕ) (st st2 : UnionFind) : Prop where
  rkeq : st2.rank = st.rank
  szeq : st2.size = st.size
  pleneq : st2.parent.length = st.parent.length
  rooteq : ∀ z, z < n → rootOf st2.parent z = rootOf st.parent z
  fixiff : ∀ z, z < n → (parentOf st2.parent z = z ↔ parentOf st.parent z = z)

theorem getD_set_self {l : List ℕ} {i v d : ℕ} (h : i < l.length) :
    (l.set i v).getD i d = v := by
  simp [List.getD_eq_getElem?_getD, List.getElem?_set_self h]

theorem getD_set_ne {l : List ℕ} {i j v d : ℕ} (h : i ≠ j) :
    (l.set i v).getD j d = l.getD j d := by
  simp [List.getD_eq_getElem?_getD, List.getElem?_set_ne h]

theorem parentOf_set_self {p : List ℕ} {x r : ℕ} (h : x < p.length) :
    parentOf (p.set x r) x = r :=
  getD_set_self h

theorem parentOf_set_ne {p : List ℕ} {x r z : ℕ} (h : x ≠ z) :
    parentOf (p.set x r) z = parentOf p z :=
  getD_set_ne h

theorem parentOf_range {n x : ℕ} : parentOf (List.range n) x = x := by
  by_cases h : x < n
  · simp [parentOf, List.getD_eq_getElem?_getD, List.getElem?_range h]
  · have hnone : (List.range n)[x]? = none :=
      List.getElem?_eq_none (by simpa using Nat.le_of_not_lt h)
    simp [parentOf, List.getD_eq_getElem?_getD, hnone]

theorem rankOf_replicate_zero {n x : ℕ} : rankOf (List.replicate n 0) x = 0 := by
  by_cases h : x < n
  · simp [rankOf, List.getD_eq_getElem?_getD, List.getElem?_replicate_of_lt h]
  · have hnone : (List.replicate n (0 : ℕ))[x]? = none :=
      List.getElem?_eq_none (by simpa using Nat.le_of_not_lt h)
    simp [rankOf, List.getD_eq_getElem?_getD, hnone]

theorem sizeAt_replicate_one {n x : ℕ} (h : x < n) : sizeAt (List.replicate n 1) x = 1 := by
  simp [sizeAt, List.getD_eq_getElem?_getD, List.getElem?_replicate_of_lt h]

theorem rootAux_fix {p : List ℕ} {x : ℕ} (h : parentOf p x = x) :
    ∀ f, rootAux p f x = x
  | 0 => rfl
  | f+1 => by simp [rootAux, h]

theorem rootAux_add {p : List ℕ} :
    ∀ (f g x : ℕ), rootAux p (f + g) x = rootAux p g (rootAux p f x) := by
  intro f
  induction f with
  | zero => intro g x; simp [rootAux, Nat.zero_add]
  | succ f ih =>
    intro g x
    rw [Nat.succ_add]
    by_cases h : parentOf p x = x
    · rw [rootAux_fix h, rootAux_fix h, rootAux_fix h]
    · simp only [rootAux, if_neg h]
      exact ih g (parentOf p x)

theorem rootAux_chain {n : ℕ} {p rk : List ℕ} (h : WFp n p rk) :
    ∀ (f x : ℕ), x < n → rootAux p f x < n ∧
      (parentOf p (rootAux p f x) = rootAux p f x ∨
        rankOf rk x + f ≤ rankOf rk (rootAux p f x)) := by
  intro f
  induction f with
  | zero => intro x hx; exact ⟨hx, Or.inr (Nat.le_refl _)⟩
  | succ f ih =>
    intro x hx
    by_cases hfix : parentOf p x = x
    · rw [rootAux_fix hfix]
      exact ⟨hx, Or.inl hfix⟩
    · have hstep : rootAux p (f+1) x = rootAux p f (parentOf p x) := by
        simp [rootAux, hfix]
      rw [hstep]
      have hpx : parentOf p x < n := h.pmem x hx
      rcases ih (parentOf p x) hpx with ⟨h1, h2⟩
      refine ⟨h1, ?_⟩
      rcases h2 with h2 | h2
      · exact Or.inl h2
      · refine Or.inr ?_
        have := h.rkmono x hx hfix
        omega

theorem rootOf_lt {n : ℕ} {p rk : List ℕ} (h : WFp n p rk) {x : ℕ} (hx : x < n) :
    rootOf p x < n := by
  have := (rootAux_chain h p.length x hx).1
  exact this

theorem rootOf_isRoot {n : ℕ} {p rk : List ℕ} (h : WFp n p rk) {x : ℕ} (hx : x < n) :
    parentOf p (rootOf p x) = rootOf p x := by
  rcases rootAux_chain h p.length x hx with ⟨h1, h2 | h2⟩
  · exact h2
  · exfalso
    have hb := h.rkbound (rootAux p p.length x) h1
    have hpl := h.plen
    omega

theorem rootOf_eq_self {p : List ℕ} {x : ℕ} (h : parentOf p x = x) : rootOf p x = x :=
  rootAux_fix h p.length

theorem rootAux_fix_eq_rootOf {n : ℕ} {p rk : List ℕ} (h : WFp n p rk) {f x : ℕ}
    (hx : x < n) (hfix : parentOf p (rootAux p f x) = rootAux p f x) :
    rootAux p f x = rootOf p x := by
  rcases Nat.le_total f p.length with hle | hle
  · have : rootAux p p.length x = rootAux p (f + (p.length - f)) x := by
      rw [Nat.add_sub_cancel' hle]
    rw [rootOf, this, rootAux_add, rootAux_fix hfix]
  · have : rootAux p f x = rootAux p (p.length + (f - p.length)) x := by
      rw [Nat.add_sub_cancel' hle]
    rw [this, rootAux_add]
    exact rootAux_fix (rootOf_isRoot h hx) _

theorem rank_le_rootAux {n : ℕ} {p rk : List ℕ} (h : WFp n p rk) :
    ∀ (f x : ℕ), x < n → rankOf rk x ≤ rankOf rk (rootAux p f x) := by
  intro f
  induction f with
  | zero => intro x _; exact Nat.le_refl _
  | succ f ih =>
    intro x hx
    by_cases hfix : parentOf p x = x
    · rw [rootAux_fix hfix]
    · have hstep : rootAux p (f+1) x = rootAux p f (parentOf p x) := by
        simp [rootAux, hfix]
      rw [hstep]
      have := h.rkmono x hx hfix
      have := ih (parentOf p x) (h.pmem x hx)
      omega

theorem rootOf_parent {n : ℕ} {p rk : List ℕ} (h : WFp n p rk) {x : ℕ} (hx : x < n)
    (hne : parentOf p x ≠ x) : rootOf p (parentOf p x) = rootOf p x := by
  have hn1 : 1 ≤ p.length := by
    rw [h.plen]; omega
  have hsplit : rootAux p p.length x = rootAux p (p.length - 1) (parentOf p x) := by
    have hcomp : rootAux p (1 + (p.length - 1)) x = rootAux p (p.length - 1) (parentOf p x) := by
      rw [rootAux_add]
      have h1 : rootAux p 1 x = parentOf p x := by simp [rootAux, hne]
      rw [h1]
    rw [← hcomp]
    congr 1
    omega
  have hpx : parentOf p x < n := h.pmem x hx
  rcases rootAux_chain h (p.length - 1) (parentOf p x) hpx with ⟨h1, h2 | h2⟩
  · have heq := rootAux_fix_eq_rootOf h hpx h2
    have hx2 : rootOf p x = rootAux p (p.length - 1) (parentOf p x) := hsplit
    rw [← heq, hx2]
  · exfalso
    have hb := h.rkbound _ h1
    have hr := h.rkmono x hx hne
    have hpl := h.plen
    omega

theorem rootOf_set_char {n : ℕ} {p rk rk2 : List ℕ} {x r : ℕ}
    (hold : WFp n p rk) (hnew : WFp n (p.set x r) rk2)
    (hx : x < n) (hr : parentOf p r = r) (hxr : x ≠ r)
    (hcase : r = rootOf p x ∨ rootOf p x = x) :
    ∀ z, z < n → rootOf (p.set x r) z =
      if rootOf p z = rootOf p x then r else rootOf p z := by
  have main : ∀ k z, z < n → n - rankOf rk2 z ≤ k →
      rootOf (p.set x r) z = if rootOf p z = rootOf p x then r else rootOf p z := by
    intro k
    induction k with
    | zero =>
      intro z hz hk
      exfalso
      have := hnew.rkbound z hz
      omega
    | succ k ih =>
      intro z hz hk
      by_cases hzx : z = x
      · subst hzx
        have hxlen : z < p.length := by rw [hold.plen]; exact hz
        have hpzx : parentOf (p.set z r) z = r := parentOf_set_self hxlen
        have hne2 : parentOf (p.set z r) z ≠ z := by rw [hpzx]; exact Ne.symm hxr
        have hstep : rootOf (p.set z r) (parentOf (p.set z r) z) = rootOf (p.set z r) z :=
          rootOf_parent hnew hz hne2
        have hfixr : parentOf (p.set z r) r = r := by
          rw [parentOf_set_ne hxr]; exact hr
        have hrootr : rootOf (p.set z r) r = r := rootOf_eq_self hfixr
        rw [if_pos rfl, ← hstep, hpzx, hrootr]
      · have hpz2 : parentOf (p.set x r) z = parentOf p z := parentOf_set_ne (Ne.symm hzx)
        by_cases hroot : parentOf p z = z
        · have hLz : rootOf (p.set x r) z = z := rootOf_eq_self (by rw [hpz2]; exact hroot)
          have hRz : rootOf p z = z := rootOf_eq_self hroot
          by_cases hzr : rootOf p z = rootOf p x
          · rcases hcase with hc | hc
            · rw [if_pos hzr, hLz, hc, ← hzr, hRz]
            · exact absurd (by rw [← hRz, hzr, hc]) hzx
          · rw [if_neg hzr, hLz, hRz]
        · have hne2 : parentOf (p.set x r) z ≠ z := by rw [hpz2]; exact hroot
          have hstep : rootOf (p.set x r) (parentOf (p.set x r) z) = rootOf (p.set x r) z :=
            rootOf_parent hnew hz hne2
          have hpzn : parentOf p z < n := hold.pmem z hz
          have hrkstep := hnew.rkmono z hz hne2
          rw [hpz2] at hrkstep
          have hih := ih (parentOf p z) hpzn (by omega)
          have hostep : rootOf p (parentOf p z) = rootOf p z := rootOf_parent hold hz hroot
          rw [← hstep, hpz2, hih, hostep]
  intro z hz
  exact main (n - rankOf rk2 z) z hz (Nat.le_refl _)

theorem classOf_congr {n r : ℕ} {p p2 : List ℕ}
    (h : ∀ z, z < n → rootOf p2 z = rootOf p z) : classOf p2 n r = classOf p n r := by
  unfold classOf
  apply Finset.filter_congr
  intro z hz
  rw [Finset.mem_range] at hz
  exact iff_of_eq (by rw [h z hz])

theorem findAux_spec {n : ℕ} :
    ∀ (f : ℕ) (st : UnionFind) (x : ℕ),
      WFp n st.parent st.rank → x < n →
      parentOf st.parent (rootAux st.parent f x) = rootAux st.parent f x →
      (findAux f st x).1 = rootAux st.parent f x ∧
      Preserves n st (findAux f st x).2 ∧
      WFp n (findAux f st x).2.parent (findAux f st x).2.rank := by
  intro f
  induction f with
  | zero =>
    intro st x hwf hx hfix
    exact ⟨rfl, ⟨rfl, rfl, rfl, fun z _ => rfl, fun z _ => Iff.rfl⟩, hwf⟩
  | succ f ih =>
    intro st x hwf hx hfix
    by_cases hp : parentOf st.parent x = x
    · simp only [findAux, if_pos hp]
      rw [rootAux_fix hp]
      exact ⟨rfl, ⟨rfl, rfl, rfl, fun z _ => rfl, fun z _ => Iff.rfl⟩, hwf⟩
    · have hstepAux : rootAux st.parent (f+1) x = rootAux st.parent f (parentOf st.parent x) := by
        simp [rootAux, hp]
      have hpx : parentOf st.parent x < n := hwf.pmem x hx
      have hfix2 : parentOf st.parent (rootAux st.parent f (parentOf st.parent x)) =
          rootAux st.parent f (parentOf st.parent x) := by
        rw [← hstepAux]; exact hfix
      rcases ih st (parentOf st.parent x) hwf hpx hfix2 with ⟨h1, hP, hW⟩
      have hrlt : rootAux st.parent f (parentOf st.parent x) < n :=
        (rootAux_chain hwf f (parentOf st.parent x) hpx).1
      have hrkx : rankOf st.rank x < rankOf st.rank (parentOf st.parent x) :=
        hwf.rkmono x hx hp
      have hrkr : rankOf st.rank (parentOf st.parent x) ≤
          rankOf st.rank (rootAux st.parent f (parentOf st.parent x)) :=
        rank_le_rootAux hwf f (parentOf st.parent x) hpx
      have hxner : x ≠ rootAux st.parent f (parentOf st.parent x) := by
        intro hcontra
        rw [← hcontra] at hrkr
        omega
      have hr1 : (findAux f st (parentOf st.parent x)).1 =
          rootAux st.parent f (parentOf st.parent x) := h1
      have hlen2 : (findAux f st (parentOf st.parent x)).2.parent.length = n := by
        rw [hP.pleneq, hwf.plen]
      have hrootfix2 : parentOf (findAux f st (parentOf st.parent x)).2.parent
          (rootAux st.parent f (parentOf st.parent x)) =
          rootAux st.parent f (parentOf st.parent x) :=
        (hP.fixiff _ hrlt).mpr hfix2
      have hreq : rootAux st.parent f (parentOf st.parent x) = rootOf st.parent x := by
        rw [rootAux_fix_eq_rootOf hwf hpx hfix2]
        exact rootOf_parent hwf hx hp
      -- well-formedness of the compressed structure
      have hWnew : WFp n ((findAux f st (parentOf st.parent x)).2.parent.set x
          (findAux f st (parentOf st.parent x)).1)
          (findAux f st (parentOf st.parent x)).2.rank := by
      { refine ⟨?_, ?_, ?_, ?_, ?_⟩
        · rw [List.length_set, hlen2]
        · exact hW.rklen
        · intro z hz
          by_cases hzx : z = x
          · subst hzx
            rw [hr1, parentOf_set_self (by rw [hlen2]; exact hz)]
            exact hrlt
          · rw [parentOf_set_ne (Ne.symm hzx)]
            exact hW.pmem z hz
        · intro z hz hne
          by_cases hzx : z = x
          · subst hzx
            rw [hr1, parentOf_set_self (by rw [hlen2]; exact hz)] at hne ⊢
            rw [hP.rkeq]
            omega
          · rw [parentOf_set_ne (Ne.symm hzx)] at hne ⊢
            exact hW.rkmono z hz hne
        · intro z hz
          exact hW.rkbound z hz }
      have hrooteqP : ∀ z, z < n →
          rootOf ((findAux f st (parentOf st.parent x)).2.parent.set x
            (findAux f st (parentOf st.parent x)).1) z =
          rootOf st.parent z := by
      { intro z hz
        have hchar := rootOf_set_char hW (by rw [← hr1]; exact hWnew) hx
          hrootfix2 hxner
          (Or.inl (by rw [hP.rooteq x hx, ← hreq]))
          z hz
        rw [← hr1] at hchar
        rw [hchar]
        by_cases hcond : rootOf (findAux f st (parentOf st.parent x)).2.parent z =
            rootOf (findAux f st (parentOf st.parent x)).2.parent x
        · rw [if_pos hcond, hr1, hreq, ← hP.rooteq z hz, hcond, hP.rooteq x hx]
        · rw [if_neg hcond]
          exact hP.rooteq z hz }
      simp only [findAux, if_neg hp]
      refine ⟨?_, ⟨?_, ?_, ?_, ?_, ?_⟩, ?_⟩
      · rw [hstepAux]; exact hr1
      · exact hP.rkeq
      · exact hP.szeq
      · rw [List.length_set]; exact hP.pleneq
      · intro z hz
        exact hrooteqP z hz
      · intro z hz
        by_cases hzx : z = x
        · subst hzx
          constructor
          · intro hcc
            rw [hr1, parentOf_set_self (by rw [hlen2]; exact hz)] at hcc
            exact absurd hcc.symm hxner
          · intro hcc
            exact absurd hcc hp
        · rw [parentOf_set_ne (Ne.symm hzx)]
          exact hP.fixiff z hz
      · exact hWnew

theorem find_spec {n : ℕ} {st : UnionFind} (hI : Inv n st) {x : ℕ} (hx : x < n) :
    (st.find x).1 = rootOf st.parent x ∧
    Preserves n st (st.find x).2 ∧ Inv n (st.find x).2 := by
  unfold UnionFind.find
  have hwf := hI.wf
  have hfix : parentOf st.parent (rootAux st.parent st.parent.length x) =
      rootAux st.parent st.parent.length x := rootOf_isRoot hwf hx
  rcases findAux_spec st.parent.length st x hwf hx hfix with ⟨h1, hP, hW⟩
  refine ⟨h1, hP, hW, ?_, ?_, ?_⟩
  · rw [hP.szeq]; exact hI.szlen
  · intro r hr hroot
    have hroot0 : parentOf st.parent r = r := (hP.fixiff r hr).mp hroot
    rw [hP.szeq, hI.szeq r hr hroot0, classOf_congr (fun z hz => hP.rooteq z hz)]
  · intro r hr hroot
    have hroot0 : parentOf st.parent r = r := (hP.fixiff r hr).mp hroot
    rw [hP.rkeq, hP.szeq]
    exact hI.rklt r hr hroot0

theorem find_of_root {st : UnionFind} {x : ℕ} (h : parentOf st.parent x = x) :
    st.find x = (x, st) := by
  unfold UnionFind.find
  cases hl : st.parent.length with
  | zero => rfl
  | succ f => simp [findAux, h]

theorem rankOf_set_self {rk : List ℕ} {x v : ℕ} (h : x < rk.length) :
    rankOf (rk.set x v) x = v := getD_set_self h

theorem rankOf_set_ne {rk : List ℕ} {x v z : ℕ} (h : x ≠ z) :
    rankOf (rk.set x v) z = rankOf rk z := getD_set_ne h

theorem sizeAt_set_self {s : List ℕ} {x v : ℕ} (h : x < s.length) :
    sizeAt (s.set x v) x = v := getD_set_self h

theorem sizeAt_set_ne {s : List ℕ} {x v z : ℕ} (h : x ≠ z) :
    sizeAt (s.set x v) z = sizeAt s z := getD_set_ne h

theorem Preserves.comp {n : ℕ} {st st1 st2 : UnionFind}
    (h1 : Preserves n st st1) (h2 : Preserves n st1 st2) : Preserves n st st2 :=
  ⟨h2.rkeq.trans h1.rkeq, h2.szeq.trans h1.szeq, h2.pleneq.trans h1.pleneq,
    fun z hz => (h2.rooteq z hz).trans (h1.rooteq z hz),
    fun z hz => (h2.fixiff z hz).trans (h1.fixiff z hz)⟩

theorem collapse_iff {l w a b : ℕ} :
    ((if a = l then w else a) = (if b = l then w else b)) ↔
      (a = b ∨ (a = l ∧ b = w) ∨ (a = w ∧ b = l)) := by
  by_cases ha : a = l <;> by_cases hb : b = l <;> simp [ha, hb] <;> omega

/-- The linking step shared by the three `union` branches: attach root `l`
below root `w`, add the sizes, with `rk2` the (possibly bumped) rank list. -/
theorem link_spec {n : ℕ} {st : UnionFind} (hI : Inv n st) {l w : ℕ} {rk2 : List ℕ}
    (hln : l < n) (hwn : w < n) (hlroot : parentOf st.parent l = l)
    (hwroot : parentOf st.parent w = w) (hlw : l ≠ w)
    (hrk : (rk2 = st.rank ∧ rankOf st.rank l < rankOf st.rank w) ∨
      (rk2 = st.rank.set w (rankOf st.rank w + 1) ∧ rankOf st.rank l = rankOf st.rank w)) :
    Inv n ⟨st.parent.set l w, rk2,
        st.size.set w (sizeAt st.size w + sizeAt st.size l)⟩ ∧
    (∀ z, z < n → rootOf (st.parent.set l w) z =
      if rootOf st.parent z = l then w else rootOf st.parent z) := by
  have hwf := hI.wf
  have hrootl : rootOf st.parent l = l := rootOf_eq_self hlroot
  have hrootw : rootOf st.parent w = w := rootOf_eq_self hwroot
  have hllen : l < st.parent.length := by rw [hwf.plen]; exact hln
  have hrk2at : ∀ z, z ≠ w → rankOf rk2 z = rankOf st.rank z := by
    intro z hzw
    rcases hrk with ⟨h2, _⟩ | ⟨h2, _⟩
    · rw [h2]
    · rw [h2]; exact getD_set_ne (fun hh => hzw hh.symm)
  have hrk2w : rankOf rk2 w = rankOf st.rank w ∨ rankOf rk2 w = rankOf st.rank w + 1 := by
    rcases hrk with ⟨h2, _⟩ | ⟨h2, _⟩
    · rw [h2]; exact Or.inl rfl
    · rw [h2]
      exact Or.inr (getD_set_self (by rw [hwf.rklen]; exact hwn))
  have hrkl_lt : rankOf st.rank l < sizeAt st.size l := hI.rklt l hln hlroot
  have hrkw_lt : rankOf st.rank w < sizeAt st.size w := hI.rklt w hwn hwroot
  have hszw : sizeAt st.size w = (classOf st.parent n w).card := hI.szeq w hwn hwroot
  have hszl : sizeAt st.size l = (classOf st.parent n l).card := hI.szeq l hln hlroot
  have hdisj : Disjoint (classOf st.parent n w) (classOf st.parent n l) := by
    rw [Finset.disjoint_left]
    intro z hzw hzl
    rw [classOf, Finset.mem_filter] at hzw hzl
    have hwl : w = l := by rw [← hzw.2, hzl.2]
    exact hlw hwl.symm
  have hsum_le : (classOf st.parent n w).card + (classOf st.parent n l).card ≤ n := by
    have hsub : classOf st.parent n w ∪ classOf st.parent n l ⊆ Finset.range n :=
      Finset.union_subset (Finset.filter_subset _ _) (Finset.filter_subset _ _)
    have := Finset.card_le_card hsub
    rw [Finset.card_union_of_disjoint hdisj, Finset.card_range] at this
    exact this
  -- structural well-formedness of the linked structure
  have hWnew : WFp n (st.parent.set l w) rk2 := by
  { refine ⟨?_, ?_, ?_, ?_, ?_⟩
    · rw [List.length_set]; exact hwf.plen
    · rcases hrk with ⟨h2, _⟩ | ⟨h2, _⟩
      · rw [h2]; exact hwf.rklen
      · rw [h2, List.length_set]; exact hwf.rklen
    · intro z hz
      by_cases hzl : z = l
      · subst hzl; rw [parentOf_set_self hllen]; exact hwn
      · rw [parentOf_set_ne (Ne.symm hzl)]; exact hwf.pmem z hz
    · intro z hz hne
      by_cases hzl : z = l
      · subst hzl
        rw [parentOf_set_self hllen] at hne ⊢
        rw [hrk2at z (Ne.symm hne)]
        rcases hrk with ⟨h2, h3⟩ | ⟨h2, h3⟩
        · rw [h2]; exact h3
        · rw [h2, rankOf_set_self (by rw [hwf.rklen]; exact hwn)]
          omega
      · rw [parentOf_set_ne (Ne.symm hzl)] at hne ⊢
        have hzw : z ≠ w := by
          intro hzw
          subst hzw
          exact hne hwroot
        have hmono := hwf.rkmono z hz hne
        rw [hrk2at z hzw]
        by_cases hpw : parentOf st.parent z = w
        · rw [hpw]
          rcases hrk2w with hh | hh
          · rw [hh]; rw [hpw] at hmono; exact hmono
          · rw [hh]; rw [hpw] at hmono; omega
        · rw [hrk2at _ hpw]
          exact hmono
    · intro z hz
      by_cases hzw : z = w
      · subst hzw
        rcases hrk2w with hh | hh
        · rw [hh]; exact hwf.rkbound z hz
        · rw [hh]
          omega
      · rw [hrk2at z hzw]
        exact hwf.rkbound z hz }
  have hchar := rootOf_set_char hwf hWnew hln hwroot hlw (Or.inr hrootl)
  have hchar2 : ∀ z, z < n → rootOf (st.parent.set l w) z =
      if rootOf st.parent z = l then w else rootOf st.parent z := by
    intro z hz
    rw [hchar z hz, hrootl]
  -- class bookkeeping
  have hclassw : classOf (st.parent.set l w) n w =
      classOf st.parent n w ∪ classOf st.parent n l := by
    unfold classOf
    rw [← Finset.filter_or]
    apply Finset.filter_congr
    intro z hz
    rw [Finset.mem_range] at hz
    rw [hchar2 z hz]
    constructor
    · intro hh
      by_cases hcz : rootOf st.parent z = l
      · exact Or.inr hcz
      · rw [if_neg hcz] at hh; exact Or.inl hh
    · intro hh
      rcases hh with hh | hh
      · rw [if_neg (by rw [hh]; exact Ne.symm hlw), hh]
      · rw [if_pos hh]
  have hclassr : ∀ r2, r2 ≠ l → r2 ≠ w →
      classOf (st.parent.set l w) n r2 = classOf st.parent n r2 := by
    intro r2 hrl hrw
    unfold classOf
    apply Finset.filter_congr
    intro z hz
    rw [Finset.mem_range] at hz
    rw [hchar2 z hz]
    constructor
    · intro hh
      by_cases hcz : rootOf st.parent z = l
      · rw [if_pos hcz] at hh; exact absurd hh.symm hrw
      · rw [if_neg hcz] at hh; exact hh
    · intro hh
      rw [if_neg (by rw [hh]; exact hrl)]
      exact hh
  have hwslen : w < st.size.length := by rw [hI.szlen]; exact hwn
  refine ⟨⟨hWnew, ?_, ?_, ?_⟩, hchar2⟩
  · rw [List.length_set]; exact hI.szlen
  · intro r2 hr2 hroot2
    have hr2l : r2 ≠ l := by
      intro hh
      subst hh
      rw [parentOf_set_self hllen] at hroot2
      exact hlw hroot2.symm
    have hroot2old : parentOf st.parent r2 = r2 := by
      rw [parentOf_set_ne (Ne.symm hr2l)] at hroot2
      exact hroot2
    by_cases hr2w : r2 = w
    · subst hr2w
      show sizeAt (st.size.set r2 (sizeAt st.size r2 + sizeAt st.size l)) r2 = _
      rw [sizeAt_set_self hwslen, hclassw,
        Finset.card_union_of_disjoint hdisj, hszw, hszl]
    · show sizeAt (st.size.set w (sizeAt st.size w + sizeAt st.size l)) r2 = _
      rw [sizeAt_set_ne (fun hh => hr2w hh.symm), hclassr r2 hr2l hr2w]
      exact hI.szeq r2 hr2 hroot2old
  · intro r2 hr2 hroot2
    have hr2l : r2 ≠ l := by
      intro hh
      subst hh
      rw [parentOf_set_self hllen] at hroot2
      exact hlw hroot2.symm
    have hroot2old : parentOf st.parent r2 = r2 := by
      rw [parentOf_set_ne (Ne.symm hr2l)] at hroot2
      exact hroot2
    by_cases hr2w : r2 = w
    · subst hr2w
      show rankOf rk2 r2 < sizeAt (st.size.set r2 (sizeAt st.size r2 + sizeAt st.size l)) r2
      rw [sizeAt_set_self hwslen]
      rcases hrk2w with hh | hh
      · rw [hh]; omega
      · rw [hh]; omega
    · show rankOf rk2 r2 < sizeAt (st.size.set w (sizeAt st.size w + sizeAt st.size l)) r2
      rw [sizeAt_set_ne (fun hh => hr2w hh.symm), hrk2at r2 hr2w]
      exact hI.rklt r2 hr2 hroot2old

theorem union_spec {n : ℕ} {st : UnionFind} (hI : Inv n st) {x y : ℕ}
    (hx : x < n) (hy : y < n) :
    Inv n (st.union x y).1 ∧
    (∀ z w, z < n → w < n →
      (rootOf (st.union x y).1.parent z = rootOf (st.union x y).1.parent w ↔
        (rootOf st.parent z = rootOf st.parent w ∨
          (rootOf st.parent z = rootOf st.parent x ∧ rootOf st.parent w = rootOf st.parent y) ∨
          (rootOf st.parent z = rootOf st.parent y ∧ rootOf st.parent w = rootOf st.parent x)))) := by
  rcases find_spec hI hx with ⟨hrx, hPx, hIx⟩
  rcases find_spec hIx (x := y) hy with ⟨hry0, hPy, hIy⟩
  have hP2 : Preserves n st ((st.find x).2.find y).2 := hPx.comp hPy
  have hI2 : Inv n ((st.find x).2.find y).2 := hIy
  have hry : ((st.find x).2.find y).1 = rootOf st.parent y := by
    rw [hry0, hPx.rooteq y hy]
  have hrxn : rootOf st.parent x < n := rootOf_lt hI.wf hx
  have hryn : rootOf st.parent y < n := rootOf_lt hI.wf hy
  have hfixx : parentOf ((st.find x).2.find y).2.parent (rootOf st.parent x) =
      rootOf st.parent x :=
    (hP2.fixiff _ hrxn).mpr (rootOf_isRoot hI.wf hx)
  have hfixy : parentOf ((st.find x).2.find y).2.parent (rootOf st.parent y) =
      rootOf st.parent y :=
    (hP2.fixiff _ hryn).mpr (rootOf_isRoot hI.wf hy)
  simp only [UnionFind.union]
  by_cases hcond0 : (st.find x).1 = ((st.find x).2.find y).1
  · rw [if_pos hcond0]
    have hcond : rootOf st.parent x = rootOf st.parent y := by
      rw [← hrx, ← hry]; exact hcond0
    refine ⟨hI2, ?_⟩
    intro z w hz hw
    rw [hP2.rooteq z hz, hP2.rooteq w hw]
    constructor
    · exact fun hzw => Or.inl hzw
    · intro hzw
      rcases hzw with h | ⟨h1, h2⟩ | ⟨h1, h2⟩
      · exact h
      · rw [h1, h2, hcond]
      · rw [h1, h2, hcond]
  · rw [if_neg hcond0]
    have hcond : rootOf st.parent x ≠ rootOf st.parent y := by
      rw [← hrx, ← hry]; exact hcond0
    by_cases hrk1 : rankOf ((st.find x).2.find y).2.rank (st.find x).1 <
        rankOf ((st.find x).2.find y).2.rank ((st.find x).2.find y).1
    · rw [if_pos hrk1]
      rw [hrx, hry] at hrk1 ⊢
      rcases link_spec hI2 hrxn hryn hfixx hfixy hcond (Or.inl ⟨rfl, hrk1⟩) with ⟨hInew, hchar⟩
      refine ⟨hInew, ?_⟩
      intro z w hz hw
      rw [hchar z hz, hchar w hw]
      simp only [hP2.rooteq z hz, hP2.rooteq w hw]
      exact collapse_iff
    · rw [if_neg hrk1]
      by_cases hrk2 : rankOf ((st.find x).2.find y).2.rank ((st.find x).2.find y).1 <
          rankOf ((st.find x).2.find y).2.rank (st.find x).1
      · rw [if_pos hrk2]
        rw [hrx, hry] at hrk2 ⊢
        rcases link_spec hI2 hryn hrxn hfixy hfixx (Ne.symm hcond)
          (Or.inl ⟨rfl, hrk2⟩) with ⟨hInew, hchar⟩
        refine ⟨hInew, ?_⟩
        intro z w hz hw
        rw [hchar z hz, hchar w hw]
        simp only [hP2.rooteq z hz, hP2.rooteq w hw]
        constructor
        · intro hh
          rcases collapse_iff.mp hh with h | ⟨h1, h2⟩ | ⟨h1, h2⟩
          · exact Or.inl h
          · exact Or.inr (Or.inr ⟨h1, h2⟩)
          · exact Or.inr (Or.inl ⟨h1, h2⟩)
        · intro hh
          apply collapse_iff.mpr
          rcases hh with h | ⟨h1, h2⟩ | ⟨h1, h2⟩
          · exact Or.inl h
          · exact Or.inr (Or.inr ⟨h1, h2⟩)
          · exact Or.inr (Or.inl ⟨h1, h2⟩)
      · rw [if_neg hrk2]
        rw [hrx, hry] at hrk1 hrk2 ⊢
        have heqrk : rankOf ((st.find x).2.find y).2.rank (rootOf st.parent y) =
            rankOf ((st.find x).2.find y).2.rank (rootOf st.parent x) := by omega
        rcases link_spec hI2 hryn hrxn hfixy hfixx (Ne.symm hcond)
          (Or.inr ⟨rfl, heqrk⟩) with ⟨hInew, hchar⟩
        refine ⟨hInew, ?_⟩
        intro z w hz hw
        rw [hchar z hz, hchar w hw]
        simp only [hP2.rooteq z hz, hP2.rooteq w hw]
        constructor
        · intro hh
          rcases collapse_iff.mp hh with h | ⟨h1, h2⟩ | ⟨h1, h2⟩
          · exact Or.inl h
          · exact Or.inr (Or.inr ⟨h1, h2⟩)
          · exact Or.inr (Or.inl ⟨h1, h2⟩)
        · intro hh
          apply collapse_iff.mpr
          rcases hh with h | ⟨h1, h2⟩ | ⟨h1, h2⟩
          · exact Or.inl h
          · exact Or.inr (Or.inr ⟨h1, h2⟩)
          · exact Or.inr (Or.inl ⟨h1, h2⟩)

theorem Inv_ofSize (n : ℕ) : Inv n (UnionFind.ofSize n) := by
  refine ⟨⟨?_, ?_, ?_, ?_, ?_⟩, ?_, ?_, ?_⟩
  · exact List.length_range n
  · exact List.length_replicate n 0
  · intro x hx
    show parentOf (List.range n) x < n
    rw [parentOf_range]; exact hx
  · intro x hx hne; exact absurd parentOf_range hne
  · intro x hx
    show rankOf (List.replicate n 0) x < n
    rw [rankOf_replicate_zero]; omega
  · exact List.length_replicate n 1
  · intro r hr hroot
    show sizeAt (List.replicate n 1) r = (classOf (List.range n) n r).card
    rw [sizeAt_replicate_one hr]
    have hsingle : classOf (List.range n) n r = {r} := by
      apply Finset.ext
      intro z
      rw [classOf, Finset.mem_filter, Finset.mem_range, Finset.mem_singleton]
      constructor
      · rintro ⟨hz, hz2⟩
        rw [rootOf_eq_self parentOf_range] at hz2
        exact hz2
      · intro hz
        subst hz
        exact ⟨hr, rootOf_eq_self parentOf_range⟩
    rw [hsingle, Finset.card_singleton]
  · intro r hr hroot
    show rankOf (List.replicate n 0) r < sizeAt (List.replicate n 1) r
    rw [rankOf_replicate_zero, sizeAt_replicate_one hr]
    omega

theorem Connected.mono {us us2 : List (ℕ × ℕ)} {x y : ℕ} (hsub : ∀ q ∈ us, q ∈ us2) :
    Connected us x y → Connected us2 x y := by
  intro h
  induction h with
  | refl a => exact Connected.refl a
  | base hmem => exact Connected.base (hsub _ hmem)
  | symm _ ih => exact Connected.symm ih
  | trans _ _ ih1 ih2 => exact Connected.trans ih1 ih2

theorem connected_nil {x y : ℕ} (h : Connected [] x y) : x = y := by
  induction h with
  | refl a => rfl
  | base hmem => exact absurd hmem (List.not_mem_nil _)
  | symm _ ih => exact ih.symm
  | trans _ _ ih1 ih2 => exact ih1.trans ih2

theorem runUnions_spec {n : ℕ} :
    ∀ us : List (ℕ × ℕ), (∀ q ∈ us, q.1 < n ∧ q.2 < n) →
      Inv n (runUnions us (UnionFind.ofSize n)) ∧
      (∀ x y, x < n → y < n →
        (rootOf (runUnions us (UnionFind.ofSize n)).parent x =
            rootOf (runUnions us (UnionFind.ofSize n)).parent y ↔ Connected us x y)) := by
  intro us
  induction us using List.reverseRecOn with
  | nil =>
    intro hv
    refine ⟨Inv_ofSize n, ?_⟩
    intro x y hx hy
    show rootOf (List.range n) x = rootOf (List.range n) y ↔ _
    rw [rootOf_eq_self parentOf_range, rootOf_eq_self parentOf_range]
    constructor
    · intro h; subst h; exact Connected.refl x
    · exact connected_nil
  | append_singleton us q ih =>
    intro hv
    have hv0 : ∀ r ∈ us, r.1 < n ∧ r.2 < n := fun r hr => hv r (List.mem_append_left _ hr)
    have hq : q.1 < n ∧ q.2 < n := by
      refine hv q (List.mem_append_right _ ?_)
      exact List.mem_singleton_self q
    rcases ih hv0 with ⟨hInv, hIff⟩
    have hrun : runUnions (us ++ [q]) (UnionFind.ofSize n) =
        ((runUnions us (UnionFind.ofSize n)).union q.1 q.2).1 := by
      unfold runUnions
      rw [List.foldl_append]
      rfl
    rcases union_spec hInv hq.1 hq.2 with ⟨hInew, hUiff⟩
    rw [hrun]
    refine ⟨hInew, ?_⟩
    intro x y hx hy
    rw [hUiff x y hx hy]
    have hbase : Connected (us ++ [q]) q.1 q.2 := by
      apply Connected.base
      rw [Prod.mk.eta]
      exact List.mem_append_right _ (List.mem_singleton_self q)
    have hmono : ∀ a b, Connected us a b → Connected (us ++ [q]) a b :=
      fun a b hc => Connected.mono (fun r hr => List.mem_append_left _ hr) hc
    constructor
    · intro hh
      rcases hh with h | ⟨h1, h2⟩ | ⟨h1, h2⟩
      · exact hmono x y ((hIff x y hx hy).mp h)
      · have c1 : Connected us x q.1 := (hIff x q.1 hx hq.1).mp h1
        have c2 : Connected us y q.2 := (hIff y q.2 hy hq.2).mp h2
        exact Connected.trans (hmono _ _ c1)
          (Connected.trans hbase (Connected.symm (hmono _ _ c2)))
      · have c1 : Connected us x q.2 := (hIff x q.2 hx hq.2).mp h1
        have c2 : Connected us y q.1 := (hIff y q.1 hy hq.1).mp h2
        exact Connected.trans (hmono _ _ c1)
          (Connected.trans (Connected.symm hbase) (Connected.symm (hmono _ _ c2)))
    · intro hcon
      have haux : ∀ a b, Connected (us ++ [q]) a b →
          (rootOf (runUnions us (UnionFind.ofSize n)).parent a =
              rootOf (runUnions us (UnionFind.ofSize n)).parent b ∨
            (rootOf (runUnions us (UnionFind.ofSize n)).parent a =
                rootOf (runUnions us (UnionFind.ofSize n)).parent q.1 ∧
              rootOf (runUnions us (UnionFind.ofSize n)).parent b =
                rootOf (runUnions us (UnionFind.ofSize n)).parent q.2) ∨
            (rootOf (runUnions us (UnionFind.ofSize n)).parent a =
                rootOf (runUnions us (UnionFind.ofSize n)).parent q.2 ∧
              rootOf (runUnions us (UnionFind.ofSize n)).parent b =
                rootOf (runUnions us (UnionFind.ofSize n)).parent q.1)) := by
        intro a b hab
        induction hab with
        | refl c => exact Or.inl rfl
        | @base a2 b2 hmem =>
          rcases List.mem_append.mp hmem with hm | hm
          · have hb := hv0 _ hm
            exact Or.inl ((hIff _ _ hb.1 hb.2).mpr (Connected.base hm))
          · rw [List.mem_singleton] at hm
            have h1 : a2 = q.1 := by rw [← hm]
            have h2 : b2 = q.2 := by rw [← hm]
            rw [h1, h2]
            exact Or.inr (Or.inl ⟨rfl, rfl⟩)
        | symm _ ih2 => omega
        | trans _ _ ih2 ih3 => omega
      exact haux x y hcon

/-- C4: after any finite sequence of in-range union calls on `UnionFind(n)`,
`find(x) == find(y)` exactly when `x` and `y` were connected by some chain of
unions, and `get_size(x)` equals the number of elements `z` of `0..n-1` whose
`find(z)` equals `find(x)`. -/
theorem unionFind_find_size_correct (n : ℕ) (us : List (ℕ × ℕ))
    (hus : ∀ q ∈ us, q.1 < n ∧ q.2 < n) (x y : ℕ) (hx : x < n) (hy : y < n) :
    ((((runUnions us (UnionFind.ofSize n)).find x).1 =
        ((runUnions us (UnionFind.ofSize n)).find y).1) ↔ Connected us x y) ∧
    (runUnions us (UnionFind.ofSize n)).get_size x =
      ((Finset.range n).filter
        (fun z => ((runUnions us (UnionFind.ofSize n)).find z).1 =
          ((runUnions us (UnionFind.ofSize n)).find x).1)).card := by
  rcases runUnions_spec us hus with ⟨hInv, hIff⟩
  have hfind : ∀ z, z < n → ((runUnions us (UnionFind.ofSize n)).find z).1 =
      rootOf (runUnions us (UnionFind.ofSize n)).parent z :=
    fun z hz => (find_spec hInv hz).1
  constructor
  · rw [hfind x hx, hfind y hy]
    exact hIff x y hx hy
  · rcases find_spec hInv hx with ⟨h1, hP, _⟩
    have hrootx : rootOf (runUnions us (UnionFind.ofSize n)).parent x < n :=
      rootOf_lt hInv.wf hx
    have hfx : parentOf (runUnions us (UnionFind.ofSize n)).parent
        (rootOf (runUnions us (UnionFind.ofSize n)).parent x) =
        rootOf (runUnions us (UnionFind.ofSize n)).parent x :=
      rootOf_isRoot hInv.wf hx
    have hfilter : ((Finset.range n).filter
        (fun z => ((runUnions us (UnionFind.ofSize n)).find z).1 =
          ((runUnions us (UnionFind.ofSize n)).find x).1)) =
        classOf (runUnions us (UnionFind.ofSize n)).parent n
          (rootOf (runUnions us (UnionFind.ofSize n)).parent x) := by
      unfold classOf
      apply Finset.filter_congr
      intro z hz
      rw [Finset.mem_range] at hz
      rw [hfind z hz, hfind x hx]
    show sizeAt ((runUnions us (UnionFind.ofSize n)).find x).2.size
        ((runUnions us (UnionFind.ofSize n)).find x).1 = _
    rw [hfilter, hP.szeq, h1, hInv.szeq _ hrootx hfx]

/-- Witness for C4 with three elements and the single union `union(0, 1)`. -/
theorem unionFind_find_size_correct_witness :
    ((((runUnions [(0, 1)] (UnionFind.ofSize 3)).find 0).1 =
        ((runUnions [(0, 1)] (UnionFind.ofSize 3)).find 1).1) ↔ Connected [(0, 1)] 0 1) ∧
    (runUnions [(0, 1)] (UnionFind.ofSize 3)).get_size 0 =
      ((Finset.range 3).filter
        (fun z => ((runUnions [(0, 1)] (UnionFind.ofSize 3)).find z).1 =
          ((runUnions [(0, 1)] (UnionFind.ofSize 3)).find 0).1)).card :=
  unionFind_find_size_correct 3 [(0, 1)] (by decide) 0 1 (by decide) (by decide)

/-! ### Point Engine: spatial clustering (`SpatialChangeDetector.cluster_changes`) -/

/-- Squared Euclidean distance between two (lon, lat) points.  scipy's
`query_ball_point(p, r)` keeps points with Euclidean distance ≤ `r`; over `ℚ`
this is rendered by comparing squared distances against `r²`, guarded by
`0 ≤ r` (a negative radius catches nothing). -/
def distSq (p q : ℚ × ℚ) : ℚ := (p.1 - q.1) ^ 2 + (p.2 - q.2) ^ 2

/-- `query_radius(change_pixels, neighbor_distance)` for one query index. -/
def neighborIdx (pts : List (ℚ × ℚ)) (d : ℚ) (i : ℕ) : List ℕ :=
  (List.range pts.length).filter fun j =>
    decide (0 ≤ d) && decide (distSq (pts.getD i (0, 0)) (pts.getD j (0, 0)) ≤ d ^ 2)

/-- The union calls `cluster_changes` performs (dsa_algorithms.py lines 209-212):
`for i, neighbors: for j in neighbors: if i != j: uf.union(i, j)`. -/
def neighborPairs (pts : List (ℚ × ℚ)) (d : ℚ) : List (ℕ × ℕ) :=
  (List.range pts.length).flatMap fun i =>
    ((neighborIdx pts d i).filter fun j => decide (i ≠ j)).map fun j => (i, j)

/-- Append `i` to the bucket of root `r` in the insertion-ordered association
list (the Python dict `components` keyed by root). -/
def addToComp (assoc : List (ℕ × List ℕ)) (r i : ℕ) : List (ℕ × List ℕ) :=
  match assoc with
  | [] => [(r, [i])]
  | (r2, is) :: rest =>
    if r2 = r then (r2, is ++ [i]) :: rest else (r2, is) :: addToComp rest r i

/-- Body of `get_components`: iterate `i` over `range(n)`, `find(i)`
(compressing as it goes), and append `i` to its root's bucket. -/
def componentsAux : List ℕ → UnionFind → List (ℕ × List ℕ) → List (ℕ × List ℕ) × UnionFind
  | [], st, acc => (acc, st)
  | i :: is, st, acc =>
    componentsAux is (st.find i).2 (addToComp acc (st.find i).1 i)

/-- `UnionFind.get_components` (dsa_algorithms.py lines 109-122). -/
def UnionFind.get_components (st : UnionFind) : List (ℕ × List ℕ) × UnionFind :=
  componentsAux (List.range st.parent.length) st []

/-- `SpatialChangeDetector.cluster_changes` (dsa_algorithms.py lines 187-225):
empty input yields `[]`; otherwise union every in-radius pair of distinct
indices, extract components, keep those with at least `min_cluster_size`
members, and return their coordinate lists. -/
def cluster_changes (min_cluster_size : ℕ) (neighbor_distance : ℚ)
    (change_pixels : List (ℚ × ℚ)) : List (List (ℚ × ℚ)) :=
  match change_pixels with
  | [] => []
  | _ :: _ =>
    let uf := runUnions (neighborPairs change_pixels neighbor_distance)
      (UnionFind.ofSize change_pixels.length)
    ((uf.get_components.1.filter fun c => decide (min_cluster_size ≤ c.2.length)).map
      fun c => c.2.map fun i => change_pixels.getD i (0, 0))

theorem addToComp_fresh :
    ∀ (acc : List (ℕ × List ℕ)) (r i : ℕ), (∀ e ∈ acc, e.1 ≠ r) →
      addToComp acc r i = acc ++ [(r, [i])] := by
  intro acc
  induction acc with
  | nil => intro r i _; rfl
  | cons e rest ih =>
    intro r i hfresh
    have he : e.1 ≠ r := hfresh e (List.mem_cons_self e rest)
    obtain ⟨r2, is⟩ := e
    simp only [addToComp, if_neg he]
    rw [ih r i (fun e2 he2 => hfresh e2 (List.mem_cons_of_mem _ he2))]
    rfl

theorem componentsAux_all_roots :
    ∀ (l : List ℕ) (st : UnionFind) (acc : List (ℕ × List ℕ)),
      (∀ i ∈ l, parentOf st.parent i = i) →
      (∀ i ∈ l, ∀ e ∈ acc, e.1 ≠ i) →
      l.Nodup →
      componentsAux l st acc = (acc ++ l.map fun i => (i, [i]), st) := by
  intro l
  induction l with
  | nil => intro st acc _ _ _; simp [componentsAux]
  | cons i is ih =>
    intro st acc hroots hfresh hnd
    have hfi : st.find i = (i, st) :=
      find_of_root (hroots i (List.mem_cons_self i is))
    have hadd : addToComp acc i i = acc ++ [(i, [i])] :=
      addToComp_fresh acc i i (fun e he => hfresh i (List.mem_cons_self i is) e he)
    show componentsAux is (st.find i).2 (addToComp acc (st.find i).1 i) = _
    rw [hfi]
    show componentsAux is st (addToComp acc i i) = _
    rw [hadd]
    rw [List.nodup_cons] at hnd
    rw [ih st (acc ++ [(i, [i])])
      (fun j hj => hroots j (List.mem_cons_of_mem _ hj))
      (fun j hj e he => by
        rcases List.mem_append.mp he with h2 | h2
        · exact hfresh j (List.mem_cons_of_mem _ hj) e h2
        · rw [List.mem_singleton] at h2
          rw [h2]
          intro hcontra
          apply hnd.1
          have hij : i = j := hcontra
          rw [hij]
          exact hj)
      hnd.2]
    rw [List.append_assoc]
    rfl

theorem componentsAux_single {n : ℕ} (r : ℕ) :
    ∀ (l : List ℕ) (st : UnionFind) (acc0 : List ℕ),
      Inv n st → (∀ i ∈ l, i < n) → (∀ i ∈ l, rootOf st.parent i = r) →
      (componentsAux l st [(r, acc0)]).1 = [(r, acc0 ++ l)] := by
  intro l
  induction l with
  | nil => intro st acc0 _ _ _; simp [componentsAux]
  | cons i is ih =>
    intro st acc0 hInv hlt hroots
    have hi : i < n := hlt i (List.mem_cons_self i is)
    rcases find_spec hInv hi with ⟨h1, hP, hI2⟩
    show (componentsAux is (st.find i).2 (addToComp [(r, acc0)] (st.find i).1 i)).1 = _
    have hfr : (st.find i).1 = r := by
      rw [h1]
      exact hroots i (List.mem_cons_self i is)
    rw [hfr]
    have hadd : addToComp [(r, acc0)] r i = [(r, acc0 ++ [i])] := by
      simp [addToComp]
    rw [hadd]
    rw [ih (st.find i).2 (acc0 ++ [i]) hI2
      (fun j hj => hlt j (List.mem_cons_of_mem _ hj))
      (fun j hj => by
        rw [hP.rooteq j (hlt j (List.mem_cons_of_mem _ hj))]
        exact hroots j (List.mem_cons_of_mem _ hj))]
    rw [List.append_assoc]
    rfl

theorem map_getD_range (pts : List (ℚ × ℚ)) :
    (List.range pts.length).map (fun i => pts.getD i (0, 0)) = pts := by
  induction pts with
  | nil => rfl
  | cons p rest ih =>
    rw [List.length_cons, List.range_succ_eq_map, List.map_cons, List.map_map]
    have hmap : (List.range rest.length).map
        ((fun i => (p :: rest).getD i (0, 0)) ∘ Nat.succ) =
        (List.range rest.length).map (fun i => rest.getD i (0, 0)) :=
      List.map_congr_left (fun a _ => rfl)
    rw [List.getD_cons_zero, hmap, ih]

/-- C8: on a point set whose distinct points are pairwise strictly farther
apart than the neighbor distance, `cluster_changes` forms `N` singleton
components and, with `min_cluster_size > 1`, returns the empty list; on a
nonempty point set whose points are pairwise strictly closer than the
(nonnegative) neighbor distance, it returns exactly one cluster containing
all `N` points in order whenever `min_cluster_size ≤ N` (`min_cluster_size ≥ 1`,
as a cluster size bound). -/
theorem cluster_changes_extremes (minSize : ℕ) (d : ℚ) (pts : List (ℚ × ℚ)) :
    ((∀ i j, i < pts.length → j < pts.length → i ≠ j →
        d ^ 2 < distSq (pts.getD i (0, 0)) (pts.getD j (0, 0))) → 1 < minSize →
      ((runUnions (neighborPairs pts d)
          (UnionFind.ofSize pts.length)).get_components.1.length = pts.length ∧
        cluster_changes minSize d pts = [])) ∧
    ((∀ i j, i < pts.length → j < pts.length → i ≠ j →
        distSq (pts.getD i (0, 0)) (pts.getD j (0, 0)) < d ^ 2) → 0 ≤ d →
      1 ≤ minSize → minSize ≤ pts.length →
      cluster_changes minSize d pts = [pts]) := by
  constructor
  · intro hfar hmin
    have hpairs : neighborPairs pts d = [] := by
      rw [neighborPairs, List.flatMap_eq_nil_iff]
      intro i hi
      rw [List.mem_range] at hi
      rw [List.map_eq_nil_iff, List.filter_eq_nil_iff]
      intro j hj
      rw [neighborIdx, List.mem_filter, List.mem_range] at hj
      rcases hj with ⟨hjn, hcond⟩
      rw [Bool.and_eq_true, decide_eq_true_eq, decide_eq_true_eq] at hcond
      intro hdec
      rw [decide_eq_true_eq] at hdec
      exact absurd hcond.2 (not_le.mpr (hfar i j hi hjn hdec))
    have hcomp : (UnionFind.ofSize pts.length).get_components =
        ((List.range pts.length).map (fun i => (i, [i])), UnionFind.ofSize pts.length) := by
      unfold UnionFind.get_components
      have hlen : (UnionFind.ofSize pts.length).parent.length = pts.length :=
        List.length_range _
      rw [hlen]
      rw [componentsAux_all_roots (List.range pts.length) _ []
        (fun i _ => parentOf_range)
        (fun i _ e he => absurd he (List.not_mem_nil e))
        (List.nodup_range pts.length)]
      rw [List.nil_append]
    have hrun : runUnions (neighborPairs pts d) (UnionFind.ofSize pts.length) =
        UnionFind.ofSize pts.length := by
      rw [hpairs]
      rfl
    constructor
    · rw [hrun, hcomp]
      rw [List.length_map, List.length_range]
    · cases pts with
      | nil => rfl
      | cons p rest =>
        show (((runUnions (neighborPairs (p :: rest) d)
            (UnionFind.ofSize (p :: rest).length)).get_components.1.filter
              fun c => decide (minSize ≤ c.2.length)).map
            fun c => c.2.map fun i => (p :: rest).getD i (0, 0)) = []
        rw [hrun, hcomp]
        have hfilter : ((List.range (p :: rest).length).map (fun i => (i, [i]))).filter
            (fun c => decide (minSize ≤ c.2.length)) = [] := by
          rw [List.filter_eq_nil_iff]
          intro c hc
          rw [List.mem_map] at hc
          rcases hc with ⟨i, _, hci⟩
          intro hdec
          rw [decide_eq_true_eq] at hdec
          rw [← hci] at hdec
          have hdec2 : minSize ≤ 1 := hdec
          omega
        rw [hfilter, List.map_nil]
  · intro hclose hd hmin1 hminN
    cases pts with
    | nil =>
      exfalso
      have hz : minSize ≤ 0 := hminN
      omega
    | cons p rest =>
      have h0n : 0 < (p :: rest).length := by simp
      have hvalid : ∀ q ∈ neighborPairs (p :: rest) d,
          q.1 < (p :: rest).length ∧ q.2 < (p :: rest).length := by
        intro q hq
        rw [neighborPairs, List.mem_flatMap] at hq
        rcases hq with ⟨i, hi, hq2⟩
        rw [List.mem_map] at hq2
        rcases hq2 with ⟨j, hj, hq3⟩
        rw [List.mem_filter] at hj
        have hj2 := hj.1
        rw [neighborIdx, List.mem_filter, List.mem_range] at hj2
        rw [List.mem_range] at hi
        rw [← hq3]
        exact ⟨hi, hj2.1⟩
      have hconn : ∀ a b, a < (p :: rest).length → b < (p :: rest).length →
          Connected (neighborPairs (p :: rest) d) a b := by
        intro a b ha hb
        by_cases hab : a = b
        · rw [hab]; exact Connected.refl b
        · apply Connected.base
          rw [neighborPairs, List.mem_flatMap]
          refine ⟨a, List.mem_range.mpr ha, ?_⟩
          rw [List.mem_map]
          refine ⟨b, ?_, rfl⟩
          rw [List.mem_filter]
          constructor
          · rw [neighborIdx, List.mem_filter, List.mem_range]
            refine ⟨hb, ?_⟩
            rw [Bool.and_eq_true, decide_eq_true_eq, decide_eq_true_eq]
            exact ⟨hd, le_of_lt (hclose a b ha hb hab)⟩
          · rw [decide_eq_true_eq]
            exact hab
      rcases runUnions_spec (neighborPairs (p :: rest) d) hvalid with ⟨hInv, hIff⟩
      have hroots : ∀ z, z < (p :: rest).length →
          rootOf (runUnions (neighborPairs (p :: rest) d)
            (UnionFind.ofSize (p :: rest).length)).parent z =
          rootOf (runUnions (neighborPairs (p :: rest) d)
            (UnionFind.ofSize (p :: rest).length)).parent 0 :=
        fun z hz => (hIff z 0 hz h0n).mpr (hconn z 0 hz h0n)
      rcases find_spec hInv h0n with ⟨hf1, hfP, hfI⟩
      have hlen : (runUnions (neighborPairs (p :: rest) d)
          (UnionFind.ofSize (p :: rest).length)).parent.length = (p :: rest).length :=
        hInv.wf.plen
      have htail : List.range (p :: rest).length =
          0 :: (List.range rest.length).map Nat.succ := by
        rw [List.length_cons, List.range_succ_eq_map]
      have hjlt2 : ∀ j ∈ (List.range rest.length).map Nat.succ,
          j < (p :: rest).length := by
        intro j hj
        rw [List.mem_map] at hj
        rcases hj with ⟨k, hk, hkj⟩
        rw [List.mem_range] at hk
        rw [← hkj, List.length_cons]
        omega
      have hcomp1 : ((runUnions (neighborPairs (p :: rest) d)
          (UnionFind.ofSize (p :: rest).length)).get_components).1 =
          [(rootOf (runUnions (neighborPairs (p :: rest) d)
              (UnionFind.ofSize (p :: rest).length)).parent 0,
            List.range (p :: rest).length)] := by
        unfold UnionFind.get_components
        rw [hlen, htail]
        show (componentsAux ((List.range rest.length).map Nat.succ)
          ((runUnions (neighborPairs (p :: rest) d)
            (UnionFind.ofSize (p :: rest).length)).find 0).2
          (addToComp [] ((runUnions (neighborPairs (p :: rest) d)
            (UnionFind.ofSize (p :: rest).length)).find 0).1 0)).1 = _
        have haddz : addToComp []
            ((runUnions (neighborPairs (p :: rest) d)
              (UnionFind.ofSize (p :: rest).length)).find 0).1 0 =
            [(((runUnions (neighborPairs (p :: rest) d)
              (UnionFind.ofSize (p :: rest).length)).find 0).1, [0])] := rfl
        rw [haddz, hf1]
        rw [componentsAux_single (rootOf (runUnions (neighborPairs (p :: rest) d)
            (UnionFind.ofSize (p :: rest).length)).parent 0)
          ((List.range rest.length).map Nat.succ)
          ((runUnions (neighborPairs (p :: rest) d)
            (UnionFind.ofSize (p :: rest).length)).find 0).2 [0] hfI hjlt2
          (fun j hj => by
            rw [hfP.rooteq j (hjlt2 j hj)]
            exact hroots j (hjlt2 j hj))]
        rw [List.singleton_append, ← htail]
      show (((runUnions (neighborPairs (p :: rest) d)
          (UnionFind.ofSize (p :: rest).length)).get_components.1.filter
            fun c => decide (minSize ≤ c.2.length)).map
          fun c => c.2.map fun i => (p :: rest).getD i (0, 0)) = [p :: rest]
      rw [hcomp1]
      rw [List.filter_cons_of_pos (by
        show decide (minSize ≤ (List.range (p :: rest).length).length) = true
        rw [decide_eq_true_eq, List.length_range]
        exact hminN)]
      rw [List.filter_nil, List.map_cons, List.map_nil]
      show [(List.range (p :: rest).length).map (fun i => (p :: rest).getD i (0, 0))] = _
      rw [map_getD_range (p :: rest)]

/-- Witness for C8: two distant points with `min_cluster_size = 2` give no
clusters; two nearby points with `min_cluster_size = 2` give one cluster
holding both. -/
theorem cluster_changes_extremes_witness :
    ((runUnions (neighborPairs [((0 : ℚ), (0 : ℚ)), (3, 0)] 1)
        (UnionFind.ofSize 2)).get_components.1.length = 2 ∧
      cluster_changes 2 1 [((0 : ℚ), (0 : ℚ)), (3, 0)] = []) ∧
    cluster_changes 2 2 [((0 : ℚ), (0 : ℚ)), (1, 0)] =
      [[((0 : ℚ), (0 : ℚ)), (1, 0)]] :=
  ⟨(cluster_changes_extremes 2 1 [((0 : ℚ), (0 : ℚ)), (3, 0)]).1
      (by
        intro i j hi hj hij
        simp only [List.length_cons, List.length_nil] at hi hj
        interval_cases i <;> interval_cases j <;>
          simp_all [distSq])
      (by norm_num),
    (cluster_changes_extremes 2 2 [((0 : ℚ), (0 : ℚ)), (1, 0)]).2
      (by
        intro i j hi hj hij
        simp only [List.length_cons, List.length_nil] at hi hj
        interval_cases i <;> interval_cases j <;>
          simp_all [distSq])
      (by norm_num) (by norm_num) (by norm_num)⟩

/-! ### Point Engine: temporal matching and confidence scoring

Confidence scoring feeds Euclidean distances (square roots) into arithmetic,
so it is embedded over `ℝ`; threshold-only comparisons elsewhere stay in `ℚ`. -/

/-- Mean of a rational list (`np.mean`); `0` on the empty list only as junk. -/
def meanQ (xs : List ℚ) : ℚ := xs.sum / xs.length

/-- Per-polygon confidence of `vectorize_professional` (image_processor.py
lines 346-358), as a function of the (ndvi_change, evi_change) values sampled
at the pixels of the polygon's rasterized mask:
`min(1.0, 0.5 + (avg_ndvi_change + avg_evi_change) / 0.8)` when pixels were
sampled, else the `0.7` default. -/
def polyConfidence (vals : List (ℚ × ℚ)) : ℚ :=
  if 0 < vals.length then
    min 1 (1/2 + (meanQ (vals.map Prod.fst) + meanQ (vals.map Prod.snd)) / (4/5))
  else 7/10

/-- Nearest-neighbor search in `t2` (scipy `KDTree.query(q, k=1)`): index of a
closest point (earliest on exact ties) with its squared distance. -/
def nearestIdx (t2 : List (ℚ × ℚ)) (q : ℚ × ℚ) : ℕ × ℚ :=
  match t2 with
  | [] => (0, 0)
  | r :: rs =>
    ((rs.enum.map fun e => (e.1 + 1, distSq q e.2)).foldl
      (fun best cand => if cand.2 < best.2 then cand else best)) (0, distSq q r)

/-- `SpatialChangeDetector.match_temporal_changes` (dsa_algorithms.py lines
227-260): empty inputs give `[]`; otherwise each `t1` index is paired with its
nearest `t2` index and kept when the distance is within `max_distance`
(compared over `ℚ` as squared distances with a nonnegative radius). -/
def match_temporal_changes (max_distance : ℚ) (t1 t2 : List (ℚ × ℚ)) :
    List (ℕ × ℕ) :=
  if t1 = [] ∨ t2 = [] then []
  else
    t1.enum.filterMap fun e =>
      if 0 ≤ max_distance ∧ (nearestIdx t2 e.2).2 ≤ max_distance ^ 2 then
        some (e.1, (nearestIdx t2 e.2).1)
      else none

/-- Mean of a real list (`np.mean`); `0` on the empty list only as junk. -/
noncomputable def meanR (xs : List ℝ) : ℝ := xs.sum / xs.length

/-- `np.mean(cluster_pixels, axis=0)`: componentwise centroid. -/
noncomputable def centroid (pts : List (ℝ × ℝ)) : ℝ × ℝ :=
  (meanR (pts.map Prod.fst), meanR (pts.map Prod.snd))

/-- Euclidean norm of a 2-vector (`np.linalg.norm(..., axis=1)` entries). -/
noncomputable def normR (p : ℝ × ℝ) : ℝ := Real.sqrt (p.1 ^ 2 + p.2 ^ 2)

/-- Distance from `q` to its nearest point of `ref` (scipy `query(q, k=1)`
distance; `ref` is nonempty wherever the source calls it). -/
noncomputable def nearestDistR (ref : List (ℝ × ℝ)) (q : ℝ × ℝ) : ℝ :=
  match ref with
  | [] => 0
  | r :: rs =>
    (rs.map fun s => normR (q.1 - s.1, q.2 - s.2)).foldl min
      (normR (q.1 - r.1, q.2 - r.2))

/-- Python `round(x, 2)`; the tie rule differs from Python's round-half-to-even
only at exact half-cent values, immaterial to the interval claims. -/
noncomputable def round2 (x : ℝ) : ℝ := (round (x * 100) : ℤ) / 100

/-- `size_score = min(len(cluster_pixels) / 100, 1.0)` (dsa_algorithms.py line 282). -/
noncomputable def size_score (cluster : List (ℝ × ℝ)) : ℝ :=
  min ((cluster.length : ℝ) / 100) 1

/-- `compactness_score = 1 / (1 + avg_distance * 100)` for clusters of more
than one pixel, else `1.0` (dsa_algorithms.py lines 285-291). -/
noncomputable def compactness_score (cluster : List (ℝ × ℝ)) : ℝ :=
  if 1 < cluster.length then
    1 / (1 + meanR (cluster.map fun p =>
      normR (p.1 - (centroid cluster).1, p.2 - (centroid cluster).2)) * 100)
  else 1

/-- `persistence_score = np.mean(distances < neighbor_distance)` against the
reference set when present, else the `0.8` default (dsa_algorithms.py
lines 294-299). -/
noncomputable def persistence_score (nd : ℝ) (cluster ref : List (ℝ × ℝ)) : ℝ :=
  if 0 < ref.length then
    meanR (cluster.map fun p => if nearestDistR ref p < nd then 1 else 0)
  else 8/10

/-- `SpatialChangeDetector.calculate_change_confidence` (dsa_algorithms.py
lines 262-304): `0.0` for an empty cluster, otherwise
`round(0.3*size + 0.4*compactness + 0.3*persistence, 2)`. -/
noncomputable def calculate_change_confidence (nd : ℝ)
    (cluster ref : List (ℝ × ℝ)) : ℝ :=
  if cluster.length = 0 then 0
  else round2 (size_score cluster * (3/10) + compactness_score cluster * (4/10) +
    persistence_score nd cluster ref * (3/10))

/-! ### Raster Pipeline: polygon records and the final sort -/

/-- The `properties` of a polygon record built by `vectorize_professional`. -/
structure PolyProps where
  id : ℕ
  area_ha : ℚ
  area_pixels : ℤ
  confidence : ℚ
  ndvi_change : ℚ
  evi_change : ℚ
  severity : String

/-- One polygon record: closed coordinate ring plus properties. -/
structure Polygon where
  coordinates : List (ℚ × ℚ)
  props : PolyProps

/-- Final step of `vectorize_professional` (image_processor.py lines 380-383):
`polygons.sort(key=lambda p: p['properties']['area_ha'], reverse=True)` —
Python's stable sort, descending on hectare area, modelled by a stable merge
sort with `b.area_ha ≤ a.area_ha` as the keep-in-order test. -/
def sortPolygons (polygons : List Polygon) : List Polygon :=
  polygons.mergeSort fun a b => decide (b.props.area_ha ≤ a.props.area_ha)

/-- C9: for every reference set, `calculate_change_confidence` on an empty
cluster returns exactly `0.0` through its early guard — not the raster
scorer's `0.7` no-pixel default and not the persistence-based combination. -/
theorem calc_confidence_empty_cluster (nd : ℝ) (ref : List (ℝ × ℝ)) :
    calculate_change_confidence nd [] ref = 0 := by
  simp [calculate_change_confidence]

/-- C6: the polygon list produced by `vectorize_professional` is sorted by
hectare area in descending order — every pair (in particular every adjacent
pair) at positions `i < j` satisfies `area_ha i ≥ area_ha j`, for every list
of polygon records the earlier stages built. -/
theorem vectorize_polygons_sorted_desc (ps : List Polygon) :
    List.Pairwise (fun a b => b.props.area_ha ≤ a.props.area_ha) (sortPolygons ps) := by
  have htrans : ∀ a b c : Polygon,
      (fun a b : Polygon => decide (b.props.area_ha ≤ a.props.area_ha)) a b →
      (fun a b : Polygon => decide (b.props.area_ha ≤ a.props.area_ha)) b c →
      (fun a b : Polygon => decide (b.props.area_ha ≤ a.props.area_ha)) a c := by
    intro a b c hab hbc
    simp only [decide_eq_true_eq] at hab hbc ⊢
    exact le_trans hbc hab
  have htotal : ∀ a b : Polygon,
      ((fun a b : Polygon => decide (b.props.area_ha ≤ a.props.area_ha)) a b ||
        (fun a b : Polygon => decide (b.props.area_ha ≤ a.props.area_ha)) b a) = true := by
    intro a b
    simp only [Bool.or_eq_true, decide_eq_true_eq]
    exact le_total b.props.area_ha a.props.area_ha
  have h := List.sorted_mergeSort htrans htotal ps
  exact h.imp fun hab => by simpa using hab

theorem le_fst_of_mem_enumFrom {α : Type} :
    ∀ (l : List α) (k : ℕ) (y : ℕ × α), y ∈ l.enumFrom k → k ≤ y.1 := by
  intro l
  induction l with
  | nil => intro k y hy; exact absurd hy (List.not_mem_nil y)
  | cons x xs ih =>
    intro k y hy
    rw [List.enumFrom_cons] at hy
    rcases List.mem_cons.mp hy with h | h
    · rw [h]
    · exact Nat.le_of_succ_le (ih (k+1) y h)

theorem pairwise_fst_lt_enumFrom {α : Type} :
    ∀ (k : ℕ) (l : List α),
      List.Pairwise (fun a b : ℕ × α => a.1 < b.1) (l.enumFrom k) := by
  intro k l
  induction l generalizing k with
  | nil => exact List.Pairwise.nil
  | cons x xs ih =>
    rw [List.enumFrom_cons]
    refine List.Pairwise.cons ?_ (ih (k+1))
    intro y hy
    have hle := le_fst_of_mem_enumFrom xs (k+1) y hy
    show k < y.1
    omega

/-- C10: in every returned match list the time-period-1 indices are strictly
increasing (hence each appears at most once); a time-period-2 index may appear
several times — with `t1 = [(0,0), (1,0)]` and `t2 = [(0,0)]` both matches
share `t2` index `0`, so the matching is not injective on the second set. -/
theorem match_temporal_t1_strict_t2_repeats :
    (∀ (md : ℚ) (t1 t2 : List (ℚ × ℚ)),
      List.Pairwise (fun a b : ℕ × ℕ => a.1 < b.1)
        (match_temporal_changes md t1 t2)) ∧
    match_temporal_changes 2 [((0 : ℚ), (0 : ℚ)), (1, 0)] [((0 : ℚ), (0 : ℚ))] =
      [(0, 0), (1, 0)] := by
  constructor
  · intro md t1 t2
    rw [match_temporal_changes]
    by_cases hc : t1 = [] ∨ t2 = []
    · rw [if_pos hc]; exact List.Pairwise.nil
    · rw [if_neg hc]
      apply List.pairwise_filterMap.mpr
      refine List.Pairwise.imp ?_ (pairwise_fst_lt_enumFrom 0 t1)
      intro a b hab x hx y hy
      by_cases ha : 0 ≤ md ∧ (nearestIdx t2 a.2).2 ≤ md ^ 2
      · rw [if_pos ha, Option.mem_def] at hx
        by_cases hb : 0 ≤ md ∧ (nearestIdx t2 b.2).2 ≤ md ^ 2
        · rw [if_pos hb, Option.mem_def] at hy
          injection hx with hx2
          injection hy with hy2
          rw [← hx2, ← hy2]
          exact hab
        · rw [if_neg hb, Option.mem_def] at hy
          exact absurd hy (by simp)
      · rw [if_neg ha, Option.mem_def] at hx
        exact absurd hx (by simp)
  · norm_num [match_temporal_changes, nearestIdx, distSq, List.filterMap]
    intro h
    simp at h

/-- C3 counterexample: a polygon whose sampled mean NDVI and EVI changes are
both −1 (strong vegetation gain, within the index change range [−2, 2]) gets
confidence `min(1, 0.5 + (−2)/0.8) = −2`, outside `[0, 1]`. -/
theorem polyConfidence_neg_counterexample :
    polyConfidence [((-1 : ℚ), (-1 : ℚ))] < 0 := by
  norm_num [polyConfidence, meanQ, min_def]

theorem meanR_nonneg {xs : List ℝ} (h : ∀ x ∈ xs, 0 ≤ x) : 0 ≤ meanR xs :=
  div_nonneg (List.sum_nonneg h) (Nat.cast_nonneg _)

theorem meanR_le_one {xs : List ℝ} (h : ∀ x ∈ xs, x ≤ 1) : meanR xs ≤ 1 := by
  unfold meanR
  rcases xs with _ | ⟨x, rest⟩
  · norm_num
  · have hlen : (0 : ℝ) < ((x :: rest).length : ℝ) := by
      rw [List.length_cons]
      positivity
    rw [div_le_one hlen]
    have hsum := List.sum_le_card_nsmul (x :: rest) 1 h
    rw [nsmul_eq_mul, mul_one] at hsum
    exact hsum

theorem size_score_mem (cluster : List (ℝ × ℝ)) :
    0 ≤ size_score cluster ∧ size_score cluster ≤ 1 :=
  ⟨le_min (div_nonneg (Nat.cast_nonneg _) (by norm_num)) zero_le_one,
    min_le_right _ _⟩

theorem compactness_mem (cluster : List (ℝ × ℝ)) :
    0 ≤ compactness_score cluster ∧ compactness_score cluster ≤ 1 := by
  unfold compactness_score
  split
  · have hm : 0 ≤ meanR (cluster.map fun p =>
        normR (p.1 - (centroid cluster).1, p.2 - (centroid cluster).2)) := by
      apply meanR_nonneg
      intro x hx
      rw [List.mem_map] at hx
      rcases hx with ⟨p, _, hp⟩
      rw [← hp]
      exact Real.sqrt_nonneg _
    constructor
    · apply div_nonneg zero_le_one
      linarith
    · rw [div_le_one (by linarith)]
      linarith
  · norm_num

theorem persistence_mem (nd : ℝ) (cluster ref : List (ℝ × ℝ)) :
    0 ≤ persistence_score nd cluster ref ∧ persistence_score nd cluster ref ≤ 1 := by
  unfold persistence_score
  split
  · constructor
    · apply meanR_nonneg
      intro x hx
      rw [List.mem_map] at hx
      rcases hx with ⟨p, _, hp⟩
      rw [← hp]
      split <;> norm_num
    · apply meanR_le_one
      intro x hx
      rw [List.mem_map] at hx
      rcases hx with ⟨p, _, hp⟩
      rw [← hp]
      split <;> norm_num
  · norm_num

theorem round2_mem {x : ℝ} (h0 : 0 ≤ x) (h1 : x ≤ 1) :
    0 ≤ round2 x ∧ round2 x ≤ 1 := by
  unfold round2
  have hlo : (0 : ℤ) ≤ round (x * 100) := by
    rw [round_eq, Int.le_floor]
    push_cast
    linarith
  have hhi : round (x * 100) ≤ 100 := by
    rw [round_eq]
    have hfl : ⌊x * 100 + 1/2⌋ ≤ ⌊(201/2 : ℝ)⌋ := Int.floor_le_floor (by linarith)
    have h201 : ⌊(201/2 : ℝ)⌋ = 100 := by
      rw [Int.floor_eq_iff]
      constructor
      · push_cast
        norm_num
      · push_cast
        norm_num
    rw [h201] at hfl
    exact hfl
  constructor
  · apply div_nonneg _ (by norm_num)
    exact_mod_cast hlo
  · rw [div_le_one (by norm_num)]
    exact_mod_cast hhi

/-- C3 (amended): every Point Engine cluster confidence lies in `[0, 1]`
(for every neighbor distance, cluster and reference set); the raster
per-polygon confidence is at most 1, and is nonnegative whenever the sampled
mean NDVI change plus mean EVI change is at least `−0.4` (in particular for
nonnegative mean loss, and for the `0.7` no-pixel default) — but it is not
bounded below by 0 in general. -/
theorem confidence_ranges :
    (∀ (nd : ℝ) (cluster ref : List (ℝ × ℝ)),
      0 ≤ calculate_change_confidence nd cluster ref ∧
      calculate_change_confidence nd cluster ref ≤ 1) ∧
    (∀ vals : List (ℚ × ℚ),
      polyConfidence vals ≤ 1 ∧
      (-(2/5 : ℚ) ≤ meanQ (vals.map Prod.fst) + meanQ (vals.map Prod.snd) →
        0 ≤ polyConfidence vals)) := by
  constructor
  · intro nd cluster ref
    unfold calculate_change_confidence
    split
    · norm_num
    · have hs := size_score_mem cluster
      have hc := compactness_mem cluster
      have hp := persistence_mem nd cluster ref
      apply round2_mem
      · linarith [hs.1, hc.1, hp.1]
      · linarith [hs.2, hc.2, hp.2]
  · intro vals
    unfold polyConfidence
    split
    · constructor
      · exact min_le_left _ _
      · intro hsum
        apply le_min (by norm_num)
        have hdiv : (meanQ (vals.map Prod.fst) + meanQ (vals.map Prod.snd)) / (4/5) =
            (meanQ (vals.map Prod.fst) + meanQ (vals.map Prod.snd)) * (5/4) := by
          rw [div_eq_mul_inv]
          norm_num
        rw [hdiv]
        linarith
    · constructor
      · norm_num
      · intro _
        norm_num

/-- Witness for C3's amended statement at concrete inputs: a one-point
cluster with no reference data, and a polygon sampling the value pair (1, 1). -/
theorem confidence_ranges_witness :
    (0 ≤ calculate_change_confidence 1 [((0 : ℝ), (0 : ℝ))] [] ∧
      calculate_change_confidence 1 [((0 : ℝ), (0 : ℝ))] [] ≤ 1) ∧
    (polyConfidence [((1 : ℚ), (1 : ℚ))] ≤ 1 ∧
      0 ≤ polyConfidence [((1 : ℚ), (1 : ℚ))]) :=
  ⟨confidence_ranges.1 1 [((0 : ℝ), (0 : ℝ))] [],
    ⟨(confidence_ranges.2 [((1 : ℚ), (1 : ℚ))]).1,
      (confidence_ranges.2 [((1 : ℚ), (1 : ℚ))]).2 (by norm_num [meanQ])⟩⟩

end Defor
